import Mathlib

/-
  Verification of the geometric core of layout_tool (src/layout.py): bleed
  synthesis, the Bresenham line rasterizer with inverted color, and the
  imposition layout planner.

  Embedding conventions:
  * Python floats (millimetre arithmetic, the Bresenham error term) are
    modelled as exact rationals: every quantity the program manipulates is a
    dyadic rational well inside the range where double arithmetic is exact
    or the claims only concern sign/comparison structure.
  * `int(math.sqrt(n))` is modelled as `Nat.sqrt n`: for every feasible copy
    count the correctly rounded double square root truncates to the integer
    square root.
  * PIL images are a size plus a total pixel function on integer coordinates;
    `crop` pads out-of-range regions with black and `paste` clips to the
    destination, as PIL does.
  * The only exception raised inside `_create_new_image_with_bleed` is the
    ValueError for an unrecognized bleed mode; it is modelled with `Except`.
    `_calculate_layout` raises nothing (given `num_copies ≥ 1` and nonzero
    image dimensions), so it is a total function.
-/

namespace LayoutTool

/-! ## Layout planner (`_calculate_layout`, layout.py lines 206-238) -/

/-- The column-search loop of `_calculate_layout`: repeatedly try one more
column (`temp_cols = cols + 1`, `temp_rows = (num_copies + temp_cols - 1) //
temp_cols`, inlined here) and adopt it while that strictly lowers the row
count. -/
def gridSearchLoop (num_copies : ℕ) (cols rows : ℕ) : ℕ × ℕ :=
  if h : (num_copies + (cols + 1) - 1) / (cols + 1) < rows then
    gridSearchLoop num_copies (cols + 1) ((num_copies + (cols + 1) - 1) / (cols + 1))
  else (cols, rows)
termination_by rows

/-- Columns and rows as `_calculate_layout` computes them:
`cols = int(math.sqrt(num_copies))`, `rows = (num_copies + cols - 1) // cols`,
then the column-search loop. -/
def calcGrid (num_copies : ℕ) : ℕ × ℕ :=
  let cols := Nat.sqrt num_copies
  let rows := (num_copies + cols - 1) / cols
  gridSearchLoop num_copies cols rows

/-- Modelled from the spec text of §4.4 (for the refinement claim C5 only):
the exact ceiling `ceil(a / b)` of the rational quotient. -/
def specCeil (a b : ℕ) : ℕ := ⌈(a : ℚ) / (b : ℚ)⌉₊

/-- Modelled from the spec text of §4.4 (for the refinement claim C5 only):
repeatedly try `columns+1`; if `ceil(copy_count/(columns+1))` is strictly
smaller than the current row count, adopt the larger column count and
recompute rows; stop at the first non-improving step. -/
def specGridLoop (copy_count : ℕ) (columns rows : ℕ) : ℕ × ℕ :=
  if h : specCeil copy_count (columns + 1) < rows then
    specGridLoop copy_count (columns + 1) (specCeil copy_count (columns + 1))
  else (columns, rows)
termination_by rows

/-- Modelled from the spec text of §4.4 (for the refinement claim C5 only):
start with `columns = floor(sqrt(copy_count))`,
`rows = ceil(copy_count / columns)`, then search. -/
def specGridSearch (copy_count : ℕ) : ℕ × ℕ :=
  specGridLoop copy_count (Nat.sqrt copy_count)
    (specCeil copy_count (Nat.sqrt copy_count))

/-- The tuple `_calculate_layout` returns: `(cols, rows, scaled_width,
scaled_height, image_positions)`. -/
structure LayoutResult where
  cols : ℕ
  rows : ℕ
  scaled_width : ℚ
  scaled_height : ℚ
  image_positions : List (ℚ × ℚ)

/-- The scale factor computed by `_calculate_layout` (lines 210-227):
`available = page - 2*margin`, per-cell size
`(available - (count - 1) * spacing) / count` on each axis, and
`scale = min(max_width / image_width_mm, max_height / image_height_mm)`. -/
def layoutScale (image_width_mm image_height_mm page_width page_height : ℚ)
    (num_copies : ℕ) (margin spacing : ℚ) : ℚ :=
  let available_width := page_width - 2 * margin
  let available_height := page_height - 2 * margin
  let cols := (calcGrid num_copies).1
  let rows := (calcGrid num_copies).2
  let max_width := (available_width - ((cols : ℚ) - 1) * spacing) / (cols : ℚ)
  let max_height := (available_height - ((rows : ℚ) - 1) * spacing) / (rows : ℚ)
  min (max_width / image_width_mm) (max_height / image_height_mm)

/-- Shallow embedding of `_calculate_layout` (layout.py lines 206-238). The
positions are emitted row-major; a cell is emitted only while
`row * cols + col < num_copies`. It never raises: the Python body contains
no raise and, for `num_copies ≥ 1` and nonzero image dimensions, no division
by zero. -/
def calculate_layout (image_width_mm image_height_mm page_width page_height : ℚ)
    (num_copies : ℕ) (margin spacing : ℚ) : LayoutResult :=
  let cols := (calcGrid num_copies).1
  let rows := (calcGrid num_copies).2
  let scale := layoutScale image_width_mm image_height_mm page_width page_height
    num_copies margin spacing
  let scaled_width := image_width_mm * scale
  let scaled_height := image_height_mm * scale
  { cols := cols, rows := rows,
    scaled_width := scaled_width, scaled_height := scaled_height,
    image_positions :=
      (List.range rows).flatMap fun row =>
        (List.range cols).flatMap fun col =>
          if row * cols + col < num_copies then
            [(margin + (col : ℚ) * (scaled_width + spacing),
              page_height - margin - ((row : ℚ) + 1) * (scaled_height + spacing))]
          else [] }

/-! ## Raster model (PIL images) and the line rasterizer (`_draw_line`,
layout.py lines 115-144) -/

/-- An RGB pixel value, as in PIL mode "RGB". -/
abbrev RGB := ℤ × ℤ × ℤ

/-- Shallow embedding of a PIL image: a size plus a total pixel function on
integer coordinates. Only coordinates inside `[0, width) × [0, height)` are
ever observable through the embedded operations. -/
structure PImage where
  width : ℤ
  height : ℤ
  pix : ℤ → ℤ → RGB

/-- The color a stamp pixel receives: `color.lower() == 'inverted'` reads
the pixel from the pre-line snapshot and inverts it; any other color string
paints the fixed RGB value it denotes. -/
inductive PColor where
  | fixed (rgb : RGB)
  | inverted

/-- Photometric inversion `(255 - r, 255 - g, 255 - b)`. -/
def invert_rgb (c : RGB) : RGB := (255 - c.1, 255 - c.2.1, 255 - c.2.2)

/-- Color resolution per touched pixel of `_draw_line`: inverted reads from
the snapshot `temp_img` at the touched pixel, a fixed color is painted as
is. -/
def resolve_color (color : PColor) (snap : PImage) (px py : ℤ) : RGB :=
  match color with
  | PColor.inverted => invert_rgb (snap.pix px py)
  | PColor.fixed rgb => rgb

/-- Offsets covered by `range(-(width // 2), (width + 1) // 2)` (Python
floor division). -/
abbrev in_stamp (stroke_width offset : ℤ) : Prop :=
  -(Int.fdiv stroke_width 2) ≤ offset ∧ offset < Int.fdiv (stroke_width + 1) 2

/-- One stamp of `_draw_line`: the square of side `stroke_width` centered on
`(cx, cy)`, clipped per pixel to `[0, image_width) × [0, image_height)`.
Every pixel of one stamp is painted at most once and the painted value
depends only on the snapshot, so the simultaneous update is faithful to the
sequential inner loops. -/
def paint_stamp (snap buf : PImage) (image_width image_height cx cy : ℤ)
    (color : PColor) (stroke_width : ℤ) : PImage :=
  { buf with pix := fun px py =>
      if in_stamp stroke_width (px - cx) ∧ in_stamp stroke_width (py - cy) ∧
         0 ≤ px ∧ px < image_width ∧ 0 ≤ py ∧ py < image_height
      then resolve_color color snap px py
      else buf.pix px py }

/-- The Bresenham loop of `_draw_line`. The stamp is painted only when the
stepped center `(x1, y1)` lies inside the buffer; the loop ends at the exact
endpoint. The loop is driven by fuel (`dx + dy + 1` at the top level, enough
for every step the Python loop makes before reaching the endpoint); running
out of fuel returns the buffer unchanged, and every claim proved below is
fuel-agnostic. -/
def bresLoop (snap : PImage) (image_width image_height x2 y2 dx dy sx sy : ℤ)
    (color : PColor) (stroke_width : ℤ) :
    ℕ → ℤ → ℤ → ℚ → PImage → PImage
  | 0, _, _, _, buf => buf
  | fuel + 1, x1, y1, err, buf =>
      let buf2 := if 0 ≤ x1 ∧ x1 < image_width ∧ 0 ≤ y1 ∧ y1 < image_height
        then paint_stamp snap buf image_width image_height x1 y1 color stroke_width
        else buf
      if x1 = x2 ∧ y1 = y2 then buf2
      else
        bresLoop snap image_width image_height x2 y2 dx dy sx sy color stroke_width
          fuel
          (if err > -(dx : ℚ) then x1 + sx else x1)
          (if err < (dy : ℚ) then y1 + sy else y1)
          ((if err < (dy : ℚ) then (if err > -(dx : ℚ) then err - (dy : ℚ) else err) + (dx : ℚ)
            else (if err > -(dx : ℚ) then err - (dy : ℚ) else err)))
          buf2

/-- Shallow embedding of `_draw_line`: snapshot the buffer
(`temp_img = draw._image.copy()`), set up `dx, dy, sx, sy, err` and run the
loop. -/
def draw_line (buf : PImage) (x1 y1 x2 y2 image_width image_height : ℤ)
    (color : PColor) (stroke_width : ℤ) : PImage :=
  bresLoop buf image_width image_height x2 y2 |x2 - x1| |y2 - y1|
    (if x1 < x2 then 1 else -1) (if y1 < y2 then 1 else -1) color stroke_width
    ((|x2 - x1| + |y2 - y1|).toNat + 1) x1 y1
    ((if |x2 - x1| > |y2 - y1| then (|x2 - x1| : ℚ) else -(|y2 - y1| : ℚ)) / 2)
    buf

/-- Whether the run of the Bresenham loop paints the pixel `(px, py)`: at
some step the center is inside the buffer, the pixel is inside the stamp
around the center, and the pixel itself is inside the buffer. -/
def bresPainted (image_width image_height x2 y2 dx dy sx sy stroke_width : ℤ) :
    ℕ → ℤ → ℤ → ℚ → ℤ → ℤ → Prop
  | 0, _, _, _, _, _ => False
  | fuel + 1, x1, y1, err, px, py =>
      let here := (0 ≤ x1 ∧ x1 < image_width ∧ 0 ≤ y1 ∧ y1 < image_height) ∧
        in_stamp stroke_width (px - x1) ∧ in_stamp stroke_width (py - y1) ∧
        0 ≤ px ∧ px < image_width ∧ 0 ≤ py ∧ py < image_height
      if x1 = x2 ∧ y1 = y2 then here
      else here ∨ bresPainted image_width image_height x2 y2 dx dy sx sy stroke_width
        fuel
        (if err > -(dx : ℚ) then x1 + sx else x1)
        (if err < (dy : ℚ) then y1 + sy else y1)
        ((if err < (dy : ℚ) then (if err > -(dx : ℚ) then err - (dy : ℚ) else err) + (dx : ℚ)
          else (if err > -(dx : ℚ) then err - (dy : ℚ) else err)))
        px py

/-- `bresPainted` instantiated the way `draw_line` instantiates `bresLoop`. -/
def draw_line_painted (x1 y1 x2 y2 image_width image_height stroke_width px py : ℤ) :
    Prop :=
  bresPainted image_width image_height x2 y2 |x2 - x1| |y2 - y1|
    (if x1 < x2 then 1 else -1) (if y1 < y2 then 1 else -1) stroke_width
    ((|x2 - x1| + |y2 - y1|).toNat + 1) x1 y1
    ((if |x2 - x1| > |y2 - y1| then (|x2 - x1| : ℚ) else -(|y2 - y1| : ℚ)) / 2)
    px py

/-- The centers the Bresenham loop steps through. -/
def bresTrace (x2 y2 dx dy sx sy : ℤ) : ℕ → ℤ → ℤ → ℚ → List (ℤ × ℤ)
  | 0, _, _, _ => []
  | fuel + 1, x1, y1, err =>
      if x1 = x2 ∧ y1 = y2 then [(x1, y1)]
      else (x1, y1) :: bresTrace x2 y2 dx dy sx sy fuel
        (if err > -(dx : ℚ) then x1 + sx else x1)
        (if err < (dy : ℚ) then y1 + sy else y1)
        ((if err < (dy : ℚ) then (if err > -(dx : ℚ) then err - (dy : ℚ) else err) + (dx : ℚ)
          else (if err > -(dx : ℚ) then err - (dy : ℚ) else err)))

/-- `bresTrace` instantiated the way `draw_line` instantiates `bresLoop`. -/
def draw_line_trace (x1 y1 x2 y2 : ℤ) : List (ℤ × ℤ) :=
  bresTrace x2 y2 |x2 - x1| |y2 - y1|
    (if x1 < x2 then 1 else -1) (if y1 < y2 then 1 else -1)
    ((|x2 - x1| + |y2 - y1|).toNat + 1) x1 y1
    ((if |x2 - x1| > |y2 - y1| then (|x2 - x1| : ℚ) else -(|y2 - y1| : ℚ)) / 2)

/-! ## Bleed synthesis (`_create_new_image_with_bleed`, `_add_repeat_bleed`,
`_add_mirror_bleed`, layout.py lines 73-112) -/

/-- PIL `Image.new("RGB", (w, h), "white")`. -/
def imageNew (w h : ℤ) : PImage := ⟨w, h, fun _ _ => (255, 255, 255)⟩

/-- PIL `dest.paste(src, (px, py))`: writes `src` onto `dest` at the given
offset, clipped to the destination bounds; outside the pasted region the
destination is kept. -/
def paste (dest src : PImage) (px py : ℤ) : PImage :=
  { dest with pix := fun x y =>
      if 0 ≤ x ∧ x < dest.width ∧ 0 ≤ y ∧ y < dest.height ∧
         px ≤ x ∧ x < px + src.width ∧ py ≤ y ∧ y < py + src.height
      then src.pix (x - px) (y - py)
      else dest.pix x y }

/-- PIL `img.crop((l, t, r, b))`: a `(r-l) × (b-t)` image whose pixel
`(x, y)` is the source pixel `(l+x, t+y)` when that lies inside the source,
and black otherwise (PIL pads out-of-range crop regions with zeros). -/
def crop (img : PImage) (l t r b : ℤ) : PImage :=
  { width := r - l, height := b - t,
    pix := fun x y =>
      if 0 ≤ l + x ∧ l + x < img.width ∧ 0 ≤ t + y ∧ t + y < img.height
      then img.pix (l + x) (t + y)
      else (0, 0, 0) }

/-- PIL `transpose(Image.FLIP_LEFT_RIGHT)`. -/
def flipLeftRight (img : PImage) : PImage :=
  { img with pix := fun x y => img.pix (img.width - 1 - x) y }

/-- PIL `transpose(Image.FLIP_TOP_BOTTOM)`. -/
def flipTopBottom (img : PImage) : PImage :=
  { img with pix := fun x y => img.pix x (img.height - 1 - y) }

/-- One iteration `i` of the `_add_repeat_bleed` loop: the eight pastes of
1-pixel edge strips and corner pixels, in source order. -/
def repeat_bleed_iter (img : PImage) (width height bleed_size : ℤ)
    (new_img : PImage) (i : ℤ) : PImage :=
  let a1 := paste new_img (crop img 0 0 1 height) (bleed_size - i - 1) bleed_size
  let a2 := paste a1 (crop img (width - 1) 0 width height) (bleed_size + width + i)
    bleed_size
  let a3 := paste a2 (crop img 0 0 width 1) bleed_size (bleed_size - i - 1)
  let a4 := paste a3 (crop img 0 (height - 1) width height) bleed_size
    (bleed_size + height + i)
  let a5 := paste a4 (crop img 0 0 1 1) (bleed_size - i - 1) (bleed_size - i - 1)
  let a6 := paste a5 (crop img (width - 1) 0 width 1) (bleed_size + width + i)
    (bleed_size - i - 1)
  let a7 := paste a6 (crop img 0 (height - 1) 1 height) (bleed_size - i - 1)
    (bleed_size + height + i)
  paste a7 (crop img (width - 1) (height - 1) width height) (bleed_size + width + i)
    (bleed_size + height + i)

/-- Shallow embedding of `_add_repeat_bleed`: `for i in range(bleed_size)`
over the eight pastes. -/
def add_repeat_bleed (new_img img : PImage) (width height bleed_size : ℤ) : PImage :=
  (List.range bleed_size.toNat).foldl
    (fun acc (i : ℕ) => repeat_bleed_iter img width height bleed_size acc (i : ℤ))
    new_img

/-- Shallow embedding of `_add_mirror_bleed`: four flipped band pastes. -/
def add_mirror_bleed (new_img img : PImage) (width height bleed_size : ℤ) : PImage :=
  let a1 := paste new_img (flipLeftRight (crop img 0 0 bleed_size height)) 0 bleed_size
  let a2 := paste a1 (flipLeftRight (crop img (width - bleed_size) 0 width height))
    (width + bleed_size) bleed_size
  let a3 := paste a2 (flipTopBottom (crop img 0 0 width bleed_size)) bleed_size 0
  paste a3 (flipTopBottom (crop img 0 (height - bleed_size) width height)) bleed_size
    (height + bleed_size)

/-- The one exception `_create_new_image_with_bleed` can raise: the
ValueError for a bleed mode that is neither repeat nor mirror. -/
inductive BleedError where
  | invalidBleedMode
deriving DecidableEq

/-- Shallow embedding of `_create_new_image_with_bleed`: build the enlarged
white canvas, paste the source at `(bleed, bleed)`, then dispatch on the
mode string. There is no size check anywhere on this path. -/
def create_new_image_with_bleed (img : PImage) (width height bleed_size : ℤ)
    (bleed_mode : String) : Except BleedError (PImage × ℤ × ℤ) :=
  let new_width := width + 2 * bleed_size
  let new_height := height + 2 * bleed_size
  let base := paste (imageNew new_width new_height) img bleed_size bleed_size
  if bleed_mode = "repeat" then
    Except.ok (add_repeat_bleed base img width height bleed_size, new_width, new_height)
  else if bleed_mode = "mirror" then
    Except.ok (add_mirror_bleed base img width height bleed_size, new_width, new_height)
  else Except.error BleedError.invalidBleedMode

/-- The integer formula `(a + b - 1) / b` used by the code is the ceiling of
the exact quotient. -/
lemma specCeil_eq (a b : ℕ) (hb : 1 ≤ b) : specCeil a b = (a + b - 1) / b := by
  rcases Nat.eq_zero_or_pos a with ha | ha
  · subst ha
    have h1 : (b - 1) / b = 0 := Nat.div_eq_of_lt (by omega)
    simp [specCeil, h1]
  · have hk : 1 ≤ (a + b - 1) / b := by
      rw [Nat.le_div_iff_mul_le (by omega)]
      omega
    have hd := Nat.div_add_mod (a + b - 1) b
    have hm : (a + b - 1) % b < b := Nat.mod_lt _ (by omega)
    set k := (a + b - 1) / b with hkdef
    have hcomm : k * b = b * k := Nat.mul_comm _ _
    have hsub : (k - 1) * b = k * b - b := by rw [Nat.sub_mul, one_mul]
    have hub : a ≤ k * b := by omega
    have hlb : (k - 1) * b < a := by omega
    rw [specCeil, Nat.ceil_eq_iff (by omega)]
    have hbq : (0 : ℚ) < (b : ℚ) := by exact_mod_cast hb
    constructor
    · rw [lt_div_iff₀ hbq]
      exact_mod_cast hlb
    · rw [div_le_iff₀ hbq]
      exact_mod_cast hub

/-- The code loop and the spec-worded loop coincide. -/
lemma gridSearchLoop_eq_spec (n : ℕ) (cols rows : ℕ) :
    gridSearchLoop n cols rows = specGridLoop n cols rows := by
  induction cols, rows using gridSearchLoop.induct n with
  | case1 cols rows h ih =>
      rw [gridSearchLoop, specGridLoop]
      rw [specCeil_eq n (cols + 1) (by omega)]
      rw [dif_pos h, dif_pos h, ih]
  | case2 cols rows h =>
      rw [gridSearchLoop, specGridLoop]
      rw [specCeil_eq n (cols + 1) (by omega)]
      rw [dif_neg h, dif_neg h]

/-- The loop keeps the invariant `rows = ceil(n / cols)` with at least one
column, and returns a state with the same invariant. -/
lemma gridSearchLoop_inv (n : ℕ) (cols rows : ℕ) (hc : 1 ≤ cols)
    (hr : rows = (n + cols - 1) / cols) :
    1 ≤ (gridSearchLoop n cols rows).1 ∧
      (gridSearchLoop n cols rows).2 =
        (n + (gridSearchLoop n cols rows).1 - 1) / (gridSearchLoop n cols rows).1 := by
  induction cols, rows using gridSearchLoop.induct n with
  | case1 cols rows h ih =>
      rw [gridSearchLoop, dif_pos h]
      exact ih (by omega) rfl
  | case2 cols rows h =>
      rw [gridSearchLoop, dif_neg h]
      exact ⟨hc, hr⟩

/-- Ceiling-division upper bound: `a ≤ ((a + b - 1) / b) * b`. -/
lemma le_ceil_div_mul (a b : ℕ) (hb : 1 ≤ b) : a ≤ ((a + b - 1) / b) * b := by
  have hd := Nat.div_add_mod (a + b - 1) b
  have hm : (a + b - 1) % b < b := Nat.mod_lt _ (by omega)
  have hcomm : ((a + b - 1) / b) * b = b * ((a + b - 1) / b) := Nat.mul_comm _ _
  omega

/-- Ceiling-division lower bound: `(((a + b - 1) / b) - 1) * b < a` for
positive `a`. -/
lemma ceil_div_pred_mul_lt (a b : ℕ) (ha : 1 ≤ a) (hb : 1 ≤ b) :
    (((a + b - 1) / b) - 1) * b < a := by
  have hd := Nat.div_add_mod (a + b - 1) b
  have hm : (a + b - 1) % b < b := Nat.mod_lt _ (by omega)
  have hk : 1 ≤ (a + b - 1) / b := by
    rw [Nat.le_div_iff_mul_le (by omega)]
    omega
  set k := (a + b - 1) / b with hkdef
  have hcomm : k * b = b * k := Nat.mul_comm _ _
  have hsub : (k - 1) * b = k * b - b := by rw [Nat.sub_mul, one_mul]
  omega

/-- The grid returned by `calcGrid` satisfies the ceiling invariant and has
at least one column. -/
lemma calcGrid_inv (n : ℕ) (hn : 1 ≤ n) :
    1 ≤ (calcGrid n).1 ∧
      (calcGrid n).2 = (n + (calcGrid n).1 - 1) / (calcGrid n).1 := by
  have hs : 1 ≤ Nat.sqrt n := Nat.sqrt_pos.2 hn
  exact gridSearchLoop_inv n (Nat.sqrt n) _ hs rfl

/-- Convenience: the grid covers all copies and the last row is not empty. -/
lemma calcGrid_bounds_aux (n : ℕ) (hn : 1 ≤ n) :
    n ≤ (calcGrid n).2 * (calcGrid n).1 ∧
      ((calcGrid n).2 - 1) * (calcGrid n).1 < n := by
  obtain ⟨hc, hr⟩ := calcGrid_inv n hn
  constructor
  · rw [hr]
    exact le_ceil_div_mul n (calcGrid n).1 hc
  · rw [hr]
    exact ceil_div_pred_mul_lt n (calcGrid n).1 hn hc

/-- Length of one emitted row of positions. -/
lemma row_block_length {α : Type} (f : ℕ → α) (C m n : ℕ) :
    ((List.range C).flatMap fun c => if m + c < n then [f c] else []).length
      = min C (n - m) := by
  induction C with
  | zero => simp
  | succ C ih =>
      rw [List.range_succ, List.flatMap_append, List.length_append, ih]
      by_cases h : m + C < n
      · simp only [List.flatMap_cons, List.flatMap_nil, if_pos h]
        simp only [List.length_append, List.length_cons, List.length_nil]
        omega
      · simp only [List.flatMap_cons, List.flatMap_nil, if_neg h]
        simp only [List.length_append, List.length_nil]
        omega

/-- Length of the full row-major position list. -/
lemma positions_length_aux {α : Type} (g : ℕ → ℕ → α) (C n : ℕ) (R : ℕ) :
    ((List.range R).flatMap fun r =>
        (List.range C).flatMap fun c => if r * C + c < n then [g r c] else []).length
      = min n (R * C) := by
  induction R with
  | zero => simp
  | succ R ih =>
      rw [List.range_succ, List.flatMap_append, List.length_append, ih]
      simp only [List.flatMap_cons, List.flatMap_nil, List.append_nil]
      rw [row_block_length (g R) C (R * C) n]
      have hsm : (R + 1) * C = R * C + C := by rw [Nat.succ_mul]
      omega

/-- The position list always has exactly `num_copies` entries (shared by the
claims about C1 and C3). -/
lemma calculate_layout_length (iw ih pw ph margin spacing : ℚ) (n : ℕ)
    (hn : 1 ≤ n) :
    (calculate_layout iw ih pw ph n margin spacing).image_positions.length = n := by
  obtain ⟨hcov, _⟩ := calcGrid_bounds_aux n hn
  simp only [calculate_layout]
  rw [positions_length_aux]
  omega

/-- Membership in the position list, unfolded to the generating row and
column indices. -/
lemma mem_image_positions (iw ih pw ph margin spacing : ℚ) (n : ℕ) (p : ℚ × ℚ) :
    p ∈ (calculate_layout iw ih pw ph n margin spacing).image_positions ↔
      ∃ row col : ℕ, row < (calcGrid n).2 ∧ col < (calcGrid n).1 ∧
        row * (calcGrid n).1 + col < n ∧
        p = (margin + (col : ℚ) *
              ((calculate_layout iw ih pw ph n margin spacing).scaled_width + spacing),
             ph - margin - ((row : ℚ) + 1) *
              ((calculate_layout iw ih pw ph n margin spacing).scaled_height + spacing)) := by
  simp only [calculate_layout, List.mem_flatMap, List.mem_range]
  constructor
  · rintro ⟨row, hrow, col, hcol, hp⟩
    refine ⟨row, col, hrow, hcol, ?_, ?_⟩
    · by_contra hlt
      rw [if_neg hlt] at hp
      exact (List.not_mem_nil p) hp
    · by_cases hlt : row * (calcGrid n).1 + col < n
      · rw [if_pos hlt, List.mem_singleton] at hp
        exact hp
      · rw [if_neg hlt] at hp
        exact absurd hp (List.not_mem_nil p)
  · rintro ⟨row, col, hrow, hcol, hlt, hp⟩
    exact ⟨row, hrow, col, hcol, by rw [if_pos hlt, List.mem_singleton]; exact hp⟩

/-- Pin down an integer square root from its defining inequalities. -/
lemma sqrt_eq_of (n k : ℕ) (h1 : k * k ≤ n) (h2 : n < (k + 1) * (k + 1)) :
    Nat.sqrt n = k := by
  have ha : k ≤ Nat.sqrt n := Nat.le_sqrt.2 h1
  have hb : Nat.sqrt n < k + 1 := Nat.sqrt_lt.2 h2
  omega

/-- Concrete grid: one copy gives a 1×1 grid. -/
lemma calcGrid_one : calcGrid 1 = (1, 1) := by
  have h1 : calcGrid 1 = gridSearchLoop 1 1 1 := by
    rw [show calcGrid 1 =
          gridSearchLoop 1 (Nat.sqrt 1) ((1 + Nat.sqrt 1 - 1) / Nat.sqrt 1) from rfl,
        Nat.sqrt_one]
  rw [h1, gridSearchLoop, dif_neg (by norm_num)]

/-- Concrete grid: four copies give a 2×2 grid. -/
lemma calcGrid_four : calcGrid 4 = (2, 2) := by
  have hs : Nat.sqrt 4 = 2 := sqrt_eq_of 4 2 (by norm_num) (by norm_num)
  have h1 : calcGrid 4 = gridSearchLoop 4 2 2 := by
    rw [show calcGrid 4 =
          gridSearchLoop 4 (Nat.sqrt 4) ((4 + Nat.sqrt 4 - 1) / Nat.sqrt 4) from rfl,
        hs]
  rw [h1, gridSearchLoop, dif_neg (by norm_num)]

/-- C5: for every `copy_count ≥ 1` the planner's grid search starts with
`columns = floor(sqrt(copy_count))` and `rows = ceil(copy_count / columns)`,
then repeatedly tries `columns + 1`, adopting it (recomputing rows) exactly
when `ceil(copy_count / (columns + 1))` is strictly smaller than the current
row count, and stops at the first step that does not strictly decrease the
row count: the code's `calcGrid` equals that described process
(`specGridSearch`, worded with the exact rational ceiling). -/
theorem calcGrid_eq_specGridSearch (n : ℕ) (hn : 1 ≤ n) :
    calcGrid n = specGridSearch n := by
  have hs : 1 ≤ Nat.sqrt n := Nat.sqrt_pos.2 hn
  have h1 : calcGrid n = gridSearchLoop n (Nat.sqrt n) ((n + Nat.sqrt n - 1) / Nat.sqrt n) :=
    rfl
  rw [h1, gridSearchLoop_eq_spec, specGridSearch, specCeil_eq n (Nat.sqrt n) hs]

/-- Witness for C5 at `copy_count = 7`. -/
theorem calcGrid_eq_specGridSearch_witness :
    1 ≤ 7 ∧ calcGrid 7 = specGridSearch 7 :=
  ⟨by norm_num, calcGrid_eq_specGridSearch 7 (by norm_num)⟩

/-- C8: for every `copy_count ≥ 1` the produced grid satisfies
`rows * columns ≥ copy_count` and `(rows - 1) * columns < copy_count`. -/
theorem calcGrid_bounds (n : ℕ) (hn : 1 ≤ n) :
    n ≤ (calcGrid n).2 * (calcGrid n).1 ∧
      ((calcGrid n).2 - 1) * (calcGrid n).1 < n :=
  calcGrid_bounds_aux n hn

/-- Witness for C8 at `copy_count = 7`. -/
theorem calcGrid_bounds_witness :
    1 ≤ 7 ∧ (7 ≤ (calcGrid 7).2 * (calcGrid 7).1 ∧
      ((calcGrid 7).2 - 1) * (calcGrid 7).1 < 7) :=
  ⟨by norm_num, calcGrid_bounds 7 (by norm_num)⟩

/-- C7: the uniform scale factor is
`min(cell_width / image_width_mm, cell_height / image_height_mm)` with
`cell_axis = (page_axis - 2*margin - (count - 1)*spacing) / count`, and the
scaled dimensions keep the image's aspect ratio. -/
theorem calculate_layout_scale_property (iw ih pw ph m s : ℚ) (n : ℕ)
    (hiw : 0 < iw) (hih : 0 < ih) :
    (calculate_layout iw ih pw ph n m s).scaled_width =
      iw * min ((((pw - 2 * m) - (((calcGrid n).1 : ℚ) - 1) * s) / ((calcGrid n).1 : ℚ)) / iw)
        ((((ph - 2 * m) - (((calcGrid n).2 : ℚ) - 1) * s) / ((calcGrid n).2 : ℚ)) / ih) ∧
    (calculate_layout iw ih pw ph n m s).scaled_height =
      ih * min ((((pw - 2 * m) - (((calcGrid n).1 : ℚ) - 1) * s) / ((calcGrid n).1 : ℚ)) / iw)
        ((((ph - 2 * m) - (((calcGrid n).2 : ℚ) - 1) * s) / ((calcGrid n).2 : ℚ)) / ih) ∧
    (calculate_layout iw ih pw ph n m s).scaled_width * ih =
      (calculate_layout iw ih pw ph n m s).scaled_height * iw ∧
    ((calculate_layout iw ih pw ph n m s).scaled_height ≠ 0 →
      (calculate_layout iw ih pw ph n m s).scaled_width /
        (calculate_layout iw ih pw ph n m s).scaled_height = iw / ih) := by
  refine ⟨rfl, rfl, ?_, ?_⟩
  · show (iw * layoutScale iw ih pw ph n m s) * ih =
      (ih * layoutScale iw ih pw ph n m s) * iw
    ring
  · intro hsh
    have hsh2 : ih * layoutScale iw ih pw ph n m s ≠ 0 := hsh
    rw [show (calculate_layout iw ih pw ph n m s).scaled_width =
          iw * layoutScale iw ih pw ph n m s from rfl,
        show (calculate_layout iw ih pw ph n m s).scaled_height =
          ih * layoutScale iw ih pw ph n m s from rfl,
        div_eq_div_iff hsh2 hih.ne']
    ring

/-- Witness for C7 on the letter-page request of the spec's scenario 1. -/
theorem calculate_layout_scale_property_witness :
    (0 : ℚ) < 25.4 ∧
    ((calculate_layout 25.4 25.4 215.9 279.4 4 1 0).scaled_width * 25.4 =
      (calculate_layout 25.4 25.4 215.9 279.4 4 1 0).scaled_height * 25.4) :=
  ⟨by norm_num,
   (calculate_layout_scale_property 25.4 25.4 215.9 279.4 1 0 4
     (by norm_num) (by norm_num)).2.2.1⟩

/-- C1 counterexample: a 10×10 page with margin 20 makes the computed scale
equal to -30 ≤ 0, yet `_calculate_layout` returns a plan (one position,
scaled width -30) instead of failing: the code contains no check of the
scale's sign and no ScaleNonPositive error path. -/
theorem scale_nonpositive_counterexample :
    layoutScale 1 1 10 10 1 20 0 ≤ 0 ∧
    (calculate_layout 1 1 10 10 1 20 0).scaled_width = -30 ∧
    (calculate_layout 1 1 10 10 1 20 0).image_positions = [(20, 20)] := by
  have hsc : layoutScale 1 1 10 10 1 20 0 = -30 := by
    simp only [layoutScale, calcGrid_one]
    norm_num
  refine ⟨by rw [hsc]; norm_num, ?_, ?_⟩
  · show (1 : ℚ) * layoutScale 1 1 10 10 1 20 0 = -30
    rw [hsc]
    norm_num
  · simp only [calculate_layout, calcGrid_one, hsc]
    norm_num [List.range_succ]

/-- C1 (amended): `_calculate_layout` performs no scale validation: whenever
the computed scale is ≤ 0 it still returns a plan with `num_copies`
positions and non-positive scaled dimensions, rather than failing. -/
theorem calculate_layout_no_scale_check (iw ih pw ph m s : ℚ) (n : ℕ)
    (hn : 1 ≤ n) (hiw : 0 < iw) (hih : 0 < ih)
    (hscale : layoutScale iw ih pw ph n m s ≤ 0) :
    (calculate_layout iw ih pw ph n m s).scaled_width ≤ 0 ∧
    (calculate_layout iw ih pw ph n m s).scaled_height ≤ 0 ∧
    (calculate_layout iw ih pw ph n m s).image_positions.length = n := by
  refine ⟨?_, ?_, calculate_layout_length iw ih pw ph m s n hn⟩
  · show iw * layoutScale iw ih pw ph n m s ≤ 0
    exact mul_nonpos_of_nonneg_of_nonpos hiw.le hscale
  · show ih * layoutScale iw ih pw ph n m s ≤ 0
    exact mul_nonpos_of_nonneg_of_nonpos hih.le hscale

/-- Witness for the amended C1 at the counterexample input. -/
theorem calculate_layout_no_scale_check_witness :
    (1 ≤ 1 ∧ (0 : ℚ) < 1 ∧ layoutScale 1 1 10 10 1 20 0 ≤ 0) ∧
    ((calculate_layout 1 1 10 10 1 20 0).scaled_width ≤ 0 ∧
     (calculate_layout 1 1 10 10 1 20 0).scaled_height ≤ 0 ∧
     (calculate_layout 1 1 10 10 1 20 0).image_positions.length = 1) := by
  have hsc : layoutScale 1 1 10 10 1 20 0 ≤ 0 := by
    simp only [layoutScale, calcGrid_one]
    norm_num
  exact ⟨⟨le_refl 1, by norm_num, hsc⟩,
    calculate_layout_no_scale_check 1 1 10 10 20 0 1 (le_refl 1)
      (by norm_num) (by norm_num) hsc⟩

/-- C3 counterexample: the request image 1×1 mm, page 100×100 mm, 4 copies,
margin 1 mm, spacing 10 mm has positive scale 44, yet the plan places the
second row at y = -9, below the margin (y < 1): the y formula
`page_height - margin - (row+1)*(scaled_height+spacing)` counts one spacing
too many, so copies do not all lie within the page bounds minus margin. -/
theorem layout_plan_containment_counterexample :
    (0 : ℚ) < layoutScale 1 1 100 100 4 1 10 ∧
    ((1 : ℚ), (-9 : ℚ)) ∈ (calculate_layout 1 1 100 100 4 1 10).image_positions ∧
    ((-9 : ℚ) < 1) := by
  have hsc : layoutScale 1 1 100 100 4 1 10 = 44 := by
    simp only [layoutScale, calcGrid_four]
    norm_num
  have hlist : (calculate_layout 1 1 100 100 4 1 10).image_positions =
      [(1, 45), (55, 45), (1, -9), (55, -9)] := by
    simp only [calculate_layout, calcGrid_four, hsc]
    norm_num [List.range_succ]
  refine ⟨by rw [hsc]; norm_num, ?_, by norm_num⟩
  rw [hlist]
  simp

/-- C3 (amended): for every request with `copy_count ≥ 1`, positive image
dimensions, `spacing ≥ 0` and positive computed scale, the plan has exactly
`copy_count` positions, every copy's rectangle lies within the horizontal
margins and within the vertical band shifted down by one spacing
(`margin - spacing ≤ y` and `y + scaled_height ≤ page_height - margin -
spacing`; with `spacing = 0` this is exactly the page bounds minus margin),
and no two copies' rectangles overlap. -/
theorem calculate_layout_plan_properties (iw ih pw ph m s : ℚ) (n : ℕ)
    (hn : 1 ≤ n) (hiw : 0 < iw) (hih : 0 < ih) (hsp : 0 ≤ s)
    (hscale : 0 < layoutScale iw ih pw ph n m s) :
    (calculate_layout iw ih pw ph n m s).image_positions.length = n ∧
    (∀ p ∈ (calculate_layout iw ih pw ph n m s).image_positions,
      m ≤ p.1 ∧
      p.1 + (calculate_layout iw ih pw ph n m s).scaled_width ≤ pw - m ∧
      m - s ≤ p.2 ∧
      p.2 + (calculate_layout iw ih pw ph n m s).scaled_height ≤ ph - m - s) ∧
    (∀ p ∈ (calculate_layout iw ih pw ph n m s).image_positions,
      ∀ q ∈ (calculate_layout iw ih pw ph n m s).image_positions, p ≠ q →
        p.1 + (calculate_layout iw ih pw ph n m s).scaled_width ≤ q.1 ∨
        q.1 + (calculate_layout iw ih pw ph n m s).scaled_width ≤ p.1 ∨
        p.2 + (calculate_layout iw ih pw ph n m s).scaled_height ≤ q.2 ∨
        q.2 + (calculate_layout iw ih pw ph n m s).scaled_height ≤ p.2) := by
  obtain ⟨hcov, hlast⟩ := calcGrid_bounds_aux n hn
  obtain ⟨hc1, hrow_eq⟩ := calcGrid_inv n hn
  have hr1 : 1 ≤ (calcGrid n).2 := by
    rcases Nat.eq_zero_or_pos (calcGrid n).2 with h0 | h0
    · rw [h0] at hcov
      omega
    · exact h0
  have hcq : (0 : ℚ) < ((calcGrid n).1 : ℚ) := by exact_mod_cast hc1
  have hrq : (0 : ℚ) < ((calcGrid n).2 : ℚ) := by exact_mod_cast hr1
  have hcne : ((calcGrid n).1 : ℚ) ≠ 0 := ne_of_gt hcq
  have hrne : ((calcGrid n).2 : ℚ) ≠ 0 := ne_of_gt hrq
  have hscmin : layoutScale iw ih pw ph n m s =
      min ((((pw - 2 * m) - (((calcGrid n).1 : ℚ) - 1) * s) / ((calcGrid n).1 : ℚ)) / iw)
        ((((ph - 2 * m) - (((calcGrid n).2 : ℚ) - 1) * s) / ((calcGrid n).2 : ℚ)) / ih) :=
    rfl
  have hswr : (calculate_layout iw ih pw ph n m s).scaled_width =
      iw * layoutScale iw ih pw ph n m s := rfl
  have hshr : (calculate_layout iw ih pw ph n m s).scaled_height =
      ih * layoutScale iw ih pw ph n m s := rfl
  have hswpos : 0 < iw * layoutScale iw ih pw ph n m s := mul_pos hiw hscale
  have hshpos : 0 < ih * layoutScale iw ih pw ph n m s := mul_pos hih hscale
  have hswle : iw * layoutScale iw ih pw ph n m s ≤
      ((pw - 2 * m) - (((calcGrid n).1 : ℚ) - 1) * s) / ((calcGrid n).1 : ℚ) := by
    have h1 : layoutScale iw ih pw ph n m s ≤
        (((pw - 2 * m) - (((calcGrid n).1 : ℚ) - 1) * s) / ((calcGrid n).1 : ℚ)) / iw := by
      rw [hscmin]
      exact min_le_left _ _
    have h2 := mul_le_mul_of_nonneg_left h1 hiw.le
    rwa [mul_div_cancel₀ _ (ne_of_gt hiw)] at h2
  have hshle : ih * layoutScale iw ih pw ph n m s ≤
      ((ph - 2 * m) - (((calcGrid n).2 : ℚ) - 1) * s) / ((calcGrid n).2 : ℚ) := by
    have h1 : layoutScale iw ih pw ph n m s ≤
        (((ph - 2 * m) - (((calcGrid n).2 : ℚ) - 1) * s) / ((calcGrid n).2 : ℚ)) / ih := by
      rw [hscmin]
      exact min_le_right _ _
    have h2 := mul_le_mul_of_nonneg_left h1 hih.le
    rwa [mul_div_cancel₀ _ (ne_of_gt hih)] at h2
  have hmwe : ((calcGrid n).1 : ℚ) *
      (((pw - 2 * m) - (((calcGrid n).1 : ℚ) - 1) * s) / ((calcGrid n).1 : ℚ)) =
      (pw - 2 * m) - (((calcGrid n).1 : ℚ) - 1) * s := by
    rw [mul_comm, div_mul_cancel₀ _ hcne]
  have hmhe : ((calcGrid n).2 : ℚ) *
      (((ph - 2 * m) - (((calcGrid n).2 : ℚ) - 1) * s) / ((calcGrid n).2 : ℚ)) =
      (ph - 2 * m) - (((calcGrid n).2 : ℚ) - 1) * s := by
    rw [mul_comm, div_mul_cancel₀ _ hrne]
  obtain ⟨K, hgen⟩ : ∃ K, layoutScale iw ih pw ph n m s = K := ⟨_, rfl⟩
  rw [hgen] at hswr hshr hswpos hshpos hswle hshle hscale
  have hcmul : ((calcGrid n).1 : ℚ) * (iw * K) ≤
      ((calcGrid n).1 : ℚ) *
        (((pw - 2 * m) - (((calcGrid n).1 : ℚ) - 1) * s) / ((calcGrid n).1 : ℚ)) :=
    mul_le_mul_of_nonneg_left hswle hcq.le
  have hrmul : ((calcGrid n).2 : ℚ) * (ih * K) ≤
      ((calcGrid n).2 : ℚ) *
        (((ph - 2 * m) - (((calcGrid n).2 : ℚ) - 1) * s) / ((calcGrid n).2 : ℚ)) :=
    mul_le_mul_of_nonneg_left hshle hrq.le
  have hcbound : ((calcGrid n).1 : ℚ) * (iw * K) + (((calcGrid n).1 : ℚ) - 1) * s ≤
      pw - 2 * m := by linarith [hcmul, hmwe]
  have hrbound : ((calcGrid n).2 : ℚ) * (ih * K) + (((calcGrid n).2 : ℚ) - 1) * s ≤
      ph - 2 * m := by linarith [hrmul, hmhe]
  refine ⟨calculate_layout_length iw ih pw ph m s n hn, ?_, ?_⟩
  · intro p hp
    rw [mem_image_positions] at hp
    obtain ⟨row, col, hrow, hcol, _, hpe⟩ := hp
    rw [hswr, hshr] at hpe ⊢
    subst hpe
    have hcolq : (col : ℚ) + 1 ≤ ((calcGrid n).1 : ℚ) := by exact_mod_cast hcol
    have hrowq : (row : ℚ) + 1 ≤ ((calcGrid n).2 : ℚ) := by exact_mod_cast hrow
    have hcol0 : (0 : ℚ) ≤ (col : ℚ) := Nat.cast_nonneg col
    have hrow0 : (0 : ℚ) ≤ (row : ℚ) := Nat.cast_nonneg row
    refine ⟨?_, ?_, ?_, ?_⟩
    · have h3 : 0 ≤ (col : ℚ) * (iw * K + s) := mul_nonneg hcol0 (by linarith)
      show m ≤ m + (col : ℚ) * (iw * K + s)
      linarith
    · have h2 : (col : ℚ) * (iw * K + s) ≤ (((calcGrid n).1 : ℚ) - 1) * (iw * K + s) :=
        mul_le_mul_of_nonneg_right (by linarith) (by linarith)
      have hr1q : (((calcGrid n).1 : ℚ) - 1) * (iw * K + s) + iw * K =
          ((calcGrid n).1 : ℚ) * (iw * K) + (((calcGrid n).1 : ℚ) - 1) * s := by ring
      show m + (col : ℚ) * (iw * K + s) + iw * K ≤ pw - m
      linarith
    · have h4 : ((row : ℚ) + 1) * (ih * K + s) ≤ ((calcGrid n).2 : ℚ) * (ih * K + s) :=
        mul_le_mul_of_nonneg_right hrowq (by linarith)
      have hr2q : ((calcGrid n).2 : ℚ) * (ih * K + s) =
          ((calcGrid n).2 : ℚ) * (ih * K) + (((calcGrid n).2 : ℚ) - 1) * s + s := by ring
      show m - s ≤ ph - m - ((row : ℚ) + 1) * (ih * K + s)
      linarith
    · have h5 : ((row : ℚ) + 1) * (ih * K + s) - ih * K =
          (row : ℚ) * (ih * K + s) + s := by ring
      have h6 : 0 ≤ (row : ℚ) * (ih * K + s) := mul_nonneg hrow0 (by linarith)
      show ph - m - ((row : ℚ) + 1) * (ih * K + s) + ih * K ≤ ph - m - s
      linarith
  · intro p hp q hq hpq
    rw [mem_image_positions] at hp hq
    obtain ⟨r1, c1, hr1r, hc1c, _, hpe⟩ := hp
    obtain ⟨r2, c2, hr2r, hc2c, _, hqe⟩ := hq
    rw [hswr, hshr] at hpe hqe ⊢
    have hswsp : 0 < iw * K + s := by linarith
    have hshsp : 0 < ih * K + s := by linarith
    rcases Nat.lt_trichotomy c1 c2 with hc | hc | hc
    · left
      have hcq12 : (c1 : ℚ) + 1 ≤ (c2 : ℚ) := by exact_mod_cast hc
      have hx : 1 * (iw * K + s) ≤ ((c2 : ℚ) - (c1 : ℚ)) * (iw * K + s) :=
        mul_le_mul_of_nonneg_right (by linarith) hswsp.le
      have hring : ((c2 : ℚ) - (c1 : ℚ)) * (iw * K + s) =
          (c2 : ℚ) * (iw * K + s) - (c1 : ℚ) * (iw * K + s) := by ring
      rw [hpe, hqe]
      show m + (c1 : ℚ) * (iw * K + s) + iw * K ≤ m + (c2 : ℚ) * (iw * K + s)
      linarith
    · rcases Nat.lt_trichotomy r1 r2 with hr | hr | hr
      · right; right; right
        have hrq12 : (r1 : ℚ) + 1 ≤ (r2 : ℚ) := by exact_mod_cast hr
        have hx : 1 * (ih * K + s) ≤ ((r2 : ℚ) - (r1 : ℚ)) * (ih * K + s) :=
          mul_le_mul_of_nonneg_right (by linarith) hshsp.le
        have hring : ((r2 : ℚ) - (r1 : ℚ)) * (ih * K + s) =
            (r2 : ℚ) * (ih * K + s) - (r1 : ℚ) * (ih * K + s) := by ring
        rw [hpe, hqe]
        show ph - m - ((r2 : ℚ) + 1) * (ih * K + s) + ih * K ≤
          ph - m - ((r1 : ℚ) + 1) * (ih * K + s)
        have hexp1 : ((r2 : ℚ) + 1) * (ih * K + s) =
            (r2 : ℚ) * (ih * K + s) + (ih * K + s) := by ring
        have hexp2 : ((r1 : ℚ) + 1) * (ih * K + s) =
            (r1 : ℚ) * (ih * K + s) + (ih * K + s) := by ring
        linarith
      · exfalso
        apply hpq
        rw [hpe, hqe, hc, hr]
      · right; right; left
        have hrq12 : (r2 : ℚ) + 1 ≤ (r1 : ℚ) := by exact_mod_cast hr
        have hx : 1 * (ih * K + s) ≤ ((r1 : ℚ) - (r2 : ℚ)) * (ih * K + s) :=
          mul_le_mul_of_nonneg_right (by linarith) hshsp.le
        have hring : ((r1 : ℚ) - (r2 : ℚ)) * (ih * K + s) =
            (r1 : ℚ) * (ih * K + s) - (r2 : ℚ) * (ih * K + s) := by ring
        rw [hpe, hqe]
        show ph - m - ((r1 : ℚ) + 1) * (ih * K + s) + ih * K ≤
          ph - m - ((r2 : ℚ) + 1) * (ih * K + s)
        have hexp1 : ((r2 : ℚ) + 1) * (ih * K + s) =
            (r2 : ℚ) * (ih * K + s) + (ih * K + s) := by ring
        have hexp2 : ((r1 : ℚ) + 1) * (ih * K + s) =
            (r1 : ℚ) * (ih * K + s) + (ih * K + s) := by ring
        linarith
    · right; left
      have hcq12 : (c2 : ℚ) + 1 ≤ (c1 : ℚ) := by exact_mod_cast hc
      have hx : 1 * (iw * K + s) ≤ ((c1 : ℚ) - (c2 : ℚ)) * (iw * K + s) :=
        mul_le_mul_of_nonneg_right (by linarith) hswsp.le
      have hring : ((c1 : ℚ) - (c2 : ℚ)) * (iw * K + s) =
          (c1 : ℚ) * (iw * K + s) - (c2 : ℚ) * (iw * K + s) := by ring
      rw [hpe, hqe]
      show m + (c2 : ℚ) * (iw * K + s) + iw * K ≤ m + (c1 : ℚ) * (iw * K + s)
      linarith

/-- Witness for the amended C3 on the 4-copy, zero-spacing request. -/
theorem calculate_layout_plan_properties_witness :
    (1 ≤ 4 ∧ (0 : ℚ) < 1 ∧ (0 : ℚ) ≤ 0 ∧ 0 < layoutScale 1 1 100 100 4 1 0) ∧
    (calculate_layout 1 1 100 100 4 1 0).image_positions.length = 4 := by
  have hsc : 0 < layoutScale 1 1 100 100 4 1 0 := by
    simp only [layoutScale, calcGrid_four]
    norm_num
  exact ⟨⟨by norm_num, by norm_num, le_refl 0, hsc⟩,
    (calculate_layout_plan_properties 1 1 100 100 1 0 4 (by norm_num)
      (by norm_num) (by norm_num) (le_refl 0) hsc).1⟩

/-- The stamp paint step, characterized at one pixel. -/
lemma step_pix (snap buf : PImage) (bw bh x1 y1 : ℤ) (color : PColor)
    (stw px py : ℤ) :
    (if 0 ≤ x1 ∧ x1 < bw ∧ 0 ≤ y1 ∧ y1 < bh
     then paint_stamp snap buf bw bh x1 y1 color stw else buf).pix px py
    = if (0 ≤ x1 ∧ x1 < bw ∧ 0 ≤ y1 ∧ y1 < bh) ∧
        in_stamp stw (px - x1) ∧ in_stamp stw (py - y1) ∧
        0 ≤ px ∧ px < bw ∧ 0 ≤ py ∧ py < bh
      then resolve_color color snap px py else buf.pix px py := by
  by_cases hc : 0 ≤ x1 ∧ x1 < bw ∧ 0 ≤ y1 ∧ y1 < bh
  · rw [if_pos hc]
    by_cases hs : in_stamp stw (px - x1) ∧ in_stamp stw (py - y1) ∧
        0 ≤ px ∧ px < bw ∧ 0 ≤ py ∧ py < bh
    · rw [if_pos ⟨hc, hs⟩]
      simp only [paint_stamp]
      rw [if_pos hs]
    · rw [if_neg (by tauto)]
      simp only [paint_stamp]
      rw [if_neg hs]
  · rw [if_neg hc, if_neg (by tauto)]

/-- The run of the Bresenham loop: a pixel holds the resolved color when the
run paints it, and its original value otherwise. -/
lemma bresLoop_pix (snap : PImage) (bw bh x2 y2 dx dy sx sy : ℤ) (color : PColor)
    (stw px py : ℤ) :
    ∀ (fuel : ℕ) (x1 y1 : ℤ) (err : ℚ) (buf : PImage),
      (bresPainted bw bh x2 y2 dx dy sx sy stw fuel x1 y1 err px py →
        (bresLoop snap bw bh x2 y2 dx dy sx sy color stw fuel x1 y1 err buf).pix px py
          = resolve_color color snap px py) ∧
      (¬ bresPainted bw bh x2 y2 dx dy sx sy stw fuel x1 y1 err px py →
        (bresLoop snap bw bh x2 y2 dx dy sx sy color stw fuel x1 y1 err buf).pix px py
          = buf.pix px py) := by
  intro fuel
  induction fuel with
  | zero =>
      intro x1 y1 err buf
      exact ⟨fun h => absurd h (by simp [bresPainted]), fun _ => rfl⟩
  | succ fuel ihf =>
      intro x1 y1 err buf
      by_cases hend : x1 = x2 ∧ y1 = y2
      · constructor
        · intro hpaint
          rw [bresLoop, if_pos hend, step_pix]
          rw [bresPainted, if_pos hend] at hpaint
          rw [if_pos hpaint]
        · intro hpaint
          rw [bresLoop, if_pos hend, step_pix]
          rw [bresPainted, if_pos hend] at hpaint
          rw [if_neg hpaint]
      · have hstep := ihf
          (if err > -(dx : ℚ) then x1 + sx else x1)
          (if err < (dy : ℚ) then y1 + sy else y1)
          ((if err < (dy : ℚ) then (if err > -(dx : ℚ) then err - (dy : ℚ) else err) + (dx : ℚ)
            else (if err > -(dx : ℚ) then err - (dy : ℚ) else err)))
        constructor
        · intro hpaint
          rw [bresPainted, if_neg hend] at hpaint
          rw [bresLoop, if_neg hend]
          rcases Classical.em (bresPainted bw bh x2 y2 dx dy sx sy stw fuel
            (if err > -(dx : ℚ) then x1 + sx else x1)
            (if err < (dy : ℚ) then y1 + sy else y1)
            ((if err < (dy : ℚ) then (if err > -(dx : ℚ) then err - (dy : ℚ) else err) + (dx : ℚ)
              else (if err > -(dx : ℚ) then err - (dy : ℚ) else err))) px py) with hrec | hrec
          · exact (hstep _).1 hrec
          · have hhere : (0 ≤ x1 ∧ x1 < bw ∧ 0 ≤ y1 ∧ y1 < bh) ∧
                in_stamp stw (px - x1) ∧ in_stamp stw (py - y1) ∧
                0 ≤ px ∧ px < bw ∧ 0 ≤ py ∧ py < bh := by tauto
            rw [(hstep _).2 hrec, step_pix, if_pos hhere]
        · intro hpaint
          rw [bresPainted, if_neg hend] at hpaint
          rw [bresLoop, if_neg hend]
          have hrec : ¬ bresPainted bw bh x2 y2 dx dy sx sy stw fuel
            (if err > -(dx : ℚ) then x1 + sx else x1)
            (if err < (dy : ℚ) then y1 + sy else y1)
            ((if err < (dy : ℚ) then (if err > -(dx : ℚ) then err - (dy : ℚ) else err) + (dx : ℚ)
              else (if err > -(dx : ℚ) then err - (dy : ℚ) else err))) px py := by tauto
          have hhere : ¬ ((0 ≤ x1 ∧ x1 < bw ∧ 0 ≤ y1 ∧ y1 < bh) ∧
              in_stamp stw (px - x1) ∧ in_stamp stw (py - y1) ∧
              0 ≤ px ∧ px < bw ∧ 0 ≤ py ∧ py < bh) := by tauto
          rw [(hstep _).2 hrec, step_pix, if_neg hhere]

/-- A painted pixel always lies inside the buffer bounds. -/
lemma bresPainted_bounds (bw bh x2 y2 dx dy sx sy stw px py : ℤ) :
    ∀ (fuel : ℕ) (x1 y1 : ℤ) (err : ℚ),
      bresPainted bw bh x2 y2 dx dy sx sy stw fuel x1 y1 err px py →
      0 ≤ px ∧ px < bw ∧ 0 ≤ py ∧ py < bh := by
  intro fuel
  induction fuel with
  | zero =>
      intro x1 y1 err h
      exact absurd h (by simp [bresPainted])
  | succ fuel ihf =>
      intro x1 y1 err h
      by_cases hend : x1 = x2 ∧ y1 = y2
      · rw [bresPainted, if_pos hend] at h
        tauto
      · rw [bresPainted, if_neg hend] at h
        rcases h with h | h
        · tauto
        · exact ihf _ _ _ h

/-- A painted pixel is covered by the stamp of an in-bounds traced center. -/
lemma bresPainted_trace (bw bh x2 y2 dx dy sx sy stw px py : ℤ) :
    ∀ (fuel : ℕ) (x1 y1 : ℤ) (err : ℚ),
      bresPainted bw bh x2 y2 dx dy sx sy stw fuel x1 y1 err px py →
      ∃ c ∈ bresTrace x2 y2 dx dy sx sy fuel x1 y1 err,
        (0 ≤ c.1 ∧ c.1 < bw ∧ 0 ≤ c.2 ∧ c.2 < bh) ∧
        in_stamp stw (px - c.1) ∧ in_stamp stw (py - c.2) := by
  intro fuel
  induction fuel with
  | zero =>
      intro x1 y1 err h
      exact absurd h (by simp [bresPainted])
  | succ fuel ihf =>
      intro x1 y1 err h
      by_cases hend : x1 = x2 ∧ y1 = y2
      · rw [bresPainted, if_pos hend] at h
        refine ⟨(x1, y1), ?_, ⟨h.1, h.2.1, h.2.2.1⟩⟩
        rw [bresTrace, if_pos hend]
        exact List.mem_singleton.2 rfl
      · rw [bresPainted, if_neg hend] at h
        rw [bresTrace, if_neg hend]
        rcases h with h | h
        · exact ⟨(x1, y1), List.mem_cons_self _ _, ⟨h.1, h.2.1, h.2.2.1⟩⟩
        · obtain ⟨c, hc, hprop⟩ := ihf _ _ _ h
          exact ⟨c, List.mem_cons_of_mem _ hc, hprop⟩

/-- C9: `_draw_line` never writes outside `[0, image_width) ×
[0, image_height)`: a pixel outside the buffer keeps its value for every
endpoint pair, stroke width and color. -/
theorem draw_line_clips (buf : PImage) (x1 y1 x2 y2 bw bh : ℤ) (color : PColor)
    (stw px py : ℤ) (hout : ¬ (0 ≤ px ∧ px < bw ∧ 0 ≤ py ∧ py < bh)) :
    (draw_line buf x1 y1 x2 y2 bw bh color stw).pix px py = buf.pix px py := by
  rw [draw_line]
  apply (bresLoop_pix buf bw bh x2 y2 _ _ _ _ color stw px py _ x1 y1 _ buf).2
  intro hpaint
  exact hout (bresPainted_bounds bw bh x2 y2 _ _ _ _ stw px py _ x1 y1 _ hpaint)

/-- Witness for C9: a pixel outside a 1×1 buffer is untouched. -/
theorem draw_line_clips_witness :
    ¬ (0 ≤ (5 : ℤ) ∧ (5 : ℤ) < 1 ∧ 0 ≤ (5 : ℤ) ∧ (5 : ℤ) < 1) ∧
    (draw_line (PImage.mk 1 1 fun _ _ => (255, 255, 255)) 0 0 0 0 1 1
        (PColor.fixed (0, 0, 0)) 2).pix 5 5 =
      (PImage.mk 1 1 fun _ _ => (255, 255, 255)).pix 5 5 :=
  ⟨by norm_num,
   draw_line_clips (PImage.mk 1 1 fun _ _ => (255, 255, 255)) 0 0 0 0 1 1
     (PColor.fixed (0, 0, 0)) 2 5 5 (by norm_num)⟩

/-- C10: a pixel changes only when some stepped center is itself inside the
buffer and covers the pixel with its stamp: a stamp whose center is out of
bounds is skipped entirely, even for its in-bounds pixels. -/
theorem draw_line_stamp_gated_on_center (buf : PImage)
    (x1 y1 x2 y2 bw bh : ℤ) (color : PColor) (stw px py : ℤ)
    (hch : (draw_line buf x1 y1 x2 y2 bw bh color stw).pix px py ≠ buf.pix px py) :
    ∃ c ∈ draw_line_trace x1 y1 x2 y2,
      (0 ≤ c.1 ∧ c.1 < bw ∧ 0 ≤ c.2 ∧ c.2 < bh) ∧
      in_stamp stw (px - c.1) ∧ in_stamp stw (py - c.2) := by
  rcases Classical.em (draw_line_painted x1 y1 x2 y2 bw bh stw px py) with hp | hp
  · exact bresPainted_trace bw bh x2 y2 _ _ _ _ stw px py _ x1 y1 _ hp
  · exfalso
    apply hch
    rw [draw_line]
    exact (bresLoop_pix buf bw bh x2 y2 _ _ _ _ color stw px py _ x1 y1 _ buf).2 hp

/-- C4: with Inverted color, every painted pixel receives the inverse of the
value read from the immutable snapshot taken before the whole line begins
(equal to the buffer's pre-line content), every other pixel keeps its value;
consequently an inverted line on a pure-white buffer leaves every pixel
either pure white or pure black. -/
theorem draw_line_inverted_snapshot (buf : PImage)
    (x1 y1 x2 y2 bw bh stw px py : ℤ) :
    ((draw_line_painted x1 y1 x2 y2 bw bh stw px py →
        (draw_line buf x1 y1 x2 y2 bw bh PColor.inverted stw).pix px py
          = invert_rgb (buf.pix px py)) ∧
     (¬ draw_line_painted x1 y1 x2 y2 bw bh stw px py →
        (draw_line buf x1 y1 x2 y2 bw bh PColor.inverted stw).pix px py
          = buf.pix px py)) ∧
    ((∀ a b : ℤ, buf.pix a b = (255, 255, 255)) →
      (draw_line buf x1 y1 x2 y2 bw bh PColor.inverted stw).pix px py
          = (255, 255, 255) ∨
      (draw_line buf x1 y1 x2 y2 bw bh PColor.inverted stw).pix px py
          = (0, 0, 0)) := by
  have hpart : (draw_line_painted x1 y1 x2 y2 bw bh stw px py →
      (draw_line buf x1 y1 x2 y2 bw bh PColor.inverted stw).pix px py
        = invert_rgb (buf.pix px py)) ∧
      (¬ draw_line_painted x1 y1 x2 y2 bw bh stw px py →
      (draw_line buf x1 y1 x2 y2 bw bh PColor.inverted stw).pix px py
        = buf.pix px py) := by
    constructor
    · intro hp
      rw [draw_line]
      exact (bresLoop_pix buf bw bh x2 y2 _ _ _ _ PColor.inverted stw px py
        _ x1 y1 _ buf).1 hp
    · intro hp
      rw [draw_line]
      exact (bresLoop_pix buf bw bh x2 y2 _ _ _ _ PColor.inverted stw px py
        _ x1 y1 _ buf).2 hp
  refine ⟨hpart, ?_⟩
  intro hw
  rcases Classical.em (draw_line_painted x1 y1 x2 y2 bw bh stw px py) with hp | hp
  · right
    rw [hpart.1 hp, hw px py]
    rfl
  · left
    rw [hpart.2 hp, hw px py]

/-- The degenerate line from `(0,0)` to `(0,0)` with stroke width 2 on a 2×2
buffer paints the pixel `(0,0)`. -/
lemma painted_zero_line : draw_line_painted 0 0 0 0 2 2 2 0 0 := by
  unfold draw_line_painted
  rw [bresPainted, if_pos ⟨rfl, rfl⟩]
  refine ⟨⟨by norm_num, by norm_num, by norm_num, by norm_num⟩, ?_, ?_,
    by norm_num, by norm_num, by norm_num, by norm_num⟩
  · exact ⟨by decide, by decide⟩
  · exact ⟨by decide, by decide⟩

/-- The same degenerate line does not paint the pixel `(1,1)`: the stamp of
stroke width 2 covers offsets -1 and 0 only. -/
lemma not_painted_zero_line : ¬ draw_line_painted 0 0 0 0 2 2 2 1 1 := by
  unfold draw_line_painted
  rw [bresPainted, if_pos ⟨rfl, rfl⟩]
  intro h
  have h1 := h.2.1.2
  rw [show ((1 : ℤ) - 0) = 1 by norm_num] at h1
  rw [show Int.fdiv ((2 : ℤ) + 1) 2 = 1 from rfl] at h1
  exact absurd h1 (by norm_num)

/-- Witness for C4: on an all-white 2×2 buffer the degenerate inverted line
paints `(0,0)` pure black and leaves the untouched `(1,1)` pure white. -/
theorem draw_line_inverted_snapshot_witness :
    (draw_line (PImage.mk 2 2 fun _ _ => (255, 255, 255)) 0 0 0 0 2 2
        PColor.inverted 2).pix 0 0 = (0, 0, 0) ∧
    (draw_line (PImage.mk 2 2 fun _ _ => (255, 255, 255)) 0 0 0 0 2 2
        PColor.inverted 2).pix 1 1 = (255, 255, 255) := by
  have h1 := (draw_line_inverted_snapshot
    (PImage.mk 2 2 fun _ _ => (255, 255, 255)) 0 0 0 0 2 2 2 0 0).1.1
    painted_zero_line
  have h2 := (draw_line_inverted_snapshot
    (PImage.mk 2 2 fun _ _ => (255, 255, 255)) 0 0 0 0 2 2 2 1 1).1.2
    not_painted_zero_line
  exact ⟨by rw [h1]; rfl, by rw [h2]⟩

/-- Witness for C10: the degenerate black line on a 2×2 white buffer changes
pixel `(0,0)`, and the change is indeed covered by an in-bounds traced
center's stamp. -/
theorem draw_line_stamp_gated_on_center_witness :
    ∃ c ∈ draw_line_trace 0 0 0 0,
      (0 ≤ c.1 ∧ c.1 < 2 ∧ 0 ≤ c.2 ∧ c.2 < 2) ∧
      in_stamp 2 (0 - c.1) ∧ in_stamp 2 (0 - c.2) := by
  apply draw_line_stamp_gated_on_center
    (PImage.mk 2 2 fun _ _ => (255, 255, 255)) 0 0 0 0 2 2 PColor.inverted 2 0 0
  have h1 : (draw_line (PImage.mk 2 2 fun _ _ => (255, 255, 255)) 0 0 0 0 2 2
      PColor.inverted 2).pix 0 0
      = invert_rgb ((PImage.mk 2 2 fun _ _ => ((255 : ℤ), (255 : ℤ), (255 : ℤ))).pix 0 0) := by
    rw [draw_line]
    exact (bresLoop_pix (PImage.mk 2 2 fun _ _ => (255, 255, 255)) 2 2 0 0
      _ _ _ _ PColor.inverted 2 0 0 _ 0 0 _
      (PImage.mk 2 2 fun _ _ => (255, 255, 255))).1 painted_zero_line
  rw [h1]
  intro hcontra
  have h2 : ((0 : ℤ), (0 : ℤ), (0 : ℤ)) = ((255 : ℤ), (255 : ℤ), (255 : ℤ)) := by
    calc ((0 : ℤ), (0 : ℤ), (0 : ℤ))
        = invert_rgb ((PImage.mk 2 2 fun _ _ =>
            ((255 : ℤ), (255 : ℤ), (255 : ℤ))).pix 0 0) := by rfl
      _ = (255, 255, 255) := hcontra
  exact absurd h2 (by decide)

@[simp] lemma paste_width (dest src : PImage) (px py : ℤ) :
    (paste dest src px py).width = dest.width := rfl

@[simp] lemma paste_height (dest src : PImage) (px py : ℤ) :
    (paste dest src px py).height = dest.height := rfl

@[simp] lemma crop_width (img : PImage) (l t r b : ℤ) :
    (crop img l t r b).width = r - l := rfl

@[simp] lemma crop_height (img : PImage) (l t r b : ℤ) :
    (crop img l t r b).height = b - t := rfl

/-- The pixel equation of `paste`. -/
lemma paste_pix (dest src : PImage) (px py x y : ℤ) :
    (paste dest src px py).pix x y =
      if 0 ≤ x ∧ x < dest.width ∧ 0 ≤ y ∧ y < dest.height ∧
         px ≤ x ∧ x < px + src.width ∧ py ≤ y ∧ y < py + src.height
      then src.pix (x - px) (y - py)
      else dest.pix x y := rfl

/-- C2 counterexample: a 2×2 source with Mirror mode and
`bleed_size = 2 = min(width, height)` does not fail: the synthesis returns a
raster (PIL crop pads the out-of-range band with black); the code has no
ImageTooSmall check. -/
theorem mirror_image_too_small_counterexample :
    (create_new_image_with_bleed (PImage.mk 2 2 fun _ _ => (10, 20, 30)) 2 2 2
      "mirror").isOk = true := by
  rfl

/-- C2 (amended): Mirror mode never fails, whatever the relation between
`bleed_size` and the source dimensions: it always returns a raster of size
`(width + 2*bleed, height + 2*bleed)`; only an unrecognized mode string
makes `_create_new_image_with_bleed` fail. -/
theorem mirror_mode_never_fails (img : PImage) (width height bleed_size : ℤ) :
    (create_new_image_with_bleed img width height bleed_size "mirror").isOk = true ∧
    create_new_image_with_bleed img width height bleed_size "mirror" =
      Except.ok
        (add_mirror_bleed
          (paste (imageNew (width + 2 * bleed_size) (height + 2 * bleed_size)) img
            bleed_size bleed_size)
          img width height bleed_size,
         width + 2 * bleed_size, height + 2 * bleed_size) := by
  constructor
  · rfl
  · rfl

/-- Folding steps that never touch the pixel `(tx, ty)` leave it unchanged
(`P` is an invariant the steps preserve). -/
lemma foldl_pix_untouched (tx ty : ℤ) (f : PImage → ℕ → PImage)
    (P : PImage → Prop) (hP : ∀ B j, P B → P (f B j)) :
    ∀ (L : List ℕ), (∀ B j, P B → j ∈ L → (f B j).pix tx ty = B.pix tx ty) →
      ∀ A, P A → (L.foldl f A).pix tx ty = A.pix tx ty := by
  intro L
  induction L with
  | nil => intro _ A _; rfl
  | cons j L ihl =>
      intro h A hPA
      rw [List.foldl_cons,
        ihl (fun B k hB hk => h B k hB (List.mem_cons_of_mem _ hk)) (f A j) (hP A j hPA),
        h A j hPA (List.mem_cons_self _ _)]

/-- If exactly the step `i` of the fold writes the value `v` at `(tx, ty)`
and every other step leaves that pixel alone, the fold ends with `v` there. -/
lemma foldl_pix_write (tx ty : ℤ) (f : PImage → ℕ → PImage)
    (P : PImage → Prop) (hP : ∀ B j, P B → P (f B j)) (v : RGB) (i : ℕ) :
    ∀ (L : List ℕ),
      (∀ B j, P B → j ∈ L → (f B j).pix tx ty = if j = i then v else B.pix tx ty) →
      i ∈ L → ∀ A, P A → (L.foldl f A).pix tx ty = v := by
  intro L
  induction L with
  | nil => intro _ hil; exact absurd hil (List.not_mem_nil i)
  | cons j L ihl =>
      intro h hil A hPA
      rw [List.foldl_cons]
      by_cases hiL : i ∈ L
      · exact ihl (fun B k hB hk => h B k hB (List.mem_cons_of_mem _ hk)) hiL
          (f A j) (hP A j hPA)
      · have hj : j = i := by
          rcases List.mem_cons.1 hil with h1 | h2
          · exact h1.symm
          · exact absurd h2 hiL
        have huntouched : ∀ B k, P B → k ∈ L → (f B k).pix tx ty = B.pix tx ty := by
          intro B k hB hk
          have hki : k ≠ i := fun hki => hiL (hki ▸ hk)
          rw [h B k hB (List.mem_cons_of_mem _ hk), if_neg hki]
        rw [foldl_pix_untouched tx ty f P hP L huntouched (f A j) (hP A j hPA),
          h A j hPA (List.mem_cons_self _ _), if_pos hj]

@[simp] lemma repeat_bleed_iter_width (img : PImage) (w h b : ℤ) (A : PImage)
    (i : ℤ) : (repeat_bleed_iter img w h b A i).width = A.width := rfl

@[simp] lemma repeat_bleed_iter_height (img : PImage) (w h b : ℤ) (A : PImage)
    (i : ℤ) : (repeat_bleed_iter img w h b A i).height = A.height := rfl

/-- The pixel equation of `crop`. -/
lemma crop_pix (img : PImage) (l t r b x y : ℤ) :
    (crop img l t r b).pix x y =
      if 0 ≤ l + x ∧ l + x < img.width ∧ 0 ≤ t + y ∧ t + y < img.height
      then img.pix (l + x) (t + y) else (0, 0, 0) := rfl

/-- Iteration `j` of the repeat loop, observed at the left-border pixel
`(b - 1 - i, y)` with `b ≤ y < b + h`: iteration `i` pastes the source's
left-edge pixel there, every other iteration leaves it alone. -/
lemma repeat_iter_pix_left (img : PImage) (w h b i y : ℤ) (j : ℕ) (A : PImage)
    (hw : img.width = w) (hh : img.height = h) (hw1 : 1 ≤ w) (hh1 : 1 ≤ h)
    (hAw : A.width = w + 2 * b) (hAh : A.height = h + 2 * b)
    (hi0 : 0 ≤ i) (hib : i < b) (hy1 : b ≤ y) (hy2 : y < b + h) :
    (repeat_bleed_iter img w h b A (j : ℤ)).pix (b - 1 - i) y =
      if (j : ℤ) = i then img.pix 0 (y - b) else A.pix (b - 1 - i) y := by
  have hj0 : (0 : ℤ) ≤ (j : ℤ) := Int.natCast_nonneg j
  unfold repeat_bleed_iter
  dsimp only
  rw [paste_pix, if_neg (by
    simp only [paste_width, paste_height, crop_width, crop_height, hAw, hAh]
    omega)]
  rw [paste_pix, if_neg (by
    simp only [paste_width, paste_height, crop_width, crop_height, hAw, hAh]
    omega)]
  rw [paste_pix, if_neg (by
    simp only [paste_width, paste_height, crop_width, crop_height, hAw, hAh]
    omega)]
  rw [paste_pix, if_neg (by
    simp only [paste_width, paste_height, crop_width, crop_height, hAw, hAh]
    omega)]
  rw [paste_pix, if_neg (by
    simp only [paste_width, paste_height, crop_width, crop_height, hAw, hAh]
    omega)]
  rw [paste_pix, if_neg (by
    simp only [paste_width, paste_height, crop_width, crop_height, hAw, hAh]
    omega)]
  rw [paste_pix, if_neg (by
    simp only [paste_width, paste_height, crop_width, crop_height, hAw, hAh]
    omega)]
  rw [paste_pix]
  by_cases hji : (j : ℤ) = i
  · rw [if_pos (by
      simp only [paste_width, paste_height, crop_width, crop_height, hAw, hAh]
      omega)]
    rw [crop_pix, if_pos (by rw [hw, hh]; omega)]
    have e1 : (0 : ℤ) + ((b - 1 - i) - (b - (j : ℤ) - 1)) = 0 := by omega
    have e2 : (0 : ℤ) + (y - b) = y - b := by omega
    rw [e1, e2, if_pos hji]
  · rw [if_neg (by
      simp only [paste_width, paste_height, crop_width, crop_height, hAw, hAh]
      omega), if_neg hji]

/-- Iteration `j` of the repeat loop, observed at the right-border pixel
`(b + w + i, y)` with `b ≤ y < b + h`. -/
lemma repeat_iter_pix_right (img : PImage) (w h b i y : ℤ) (j : ℕ) (A : PImage)
    (hw : img.width = w) (hh : img.height = h) (hw1 : 1 ≤ w) (hh1 : 1 ≤ h)
    (hAw : A.width = w + 2 * b) (hAh : A.height = h + 2 * b)
    (hi0 : 0 ≤ i) (hib : i < b) (hy1 : b ≤ y) (hy2 : y < b + h) :
    (repeat_bleed_iter img w h b A (j : ℤ)).pix (b + w + i) y =
      if (j : ℤ) = i then img.pix (w - 1) (y - b) else A.pix (b + w + i) y := by
  have hj0 : (0 : ℤ) ≤ (j : ℤ) := Int.natCast_nonneg j
  unfold repeat_bleed_iter
  dsimp only
  rw [paste_pix, if_neg (by
    simp only [paste_width, paste_height, crop_width, crop_height, hAw, hAh]
    omega)]
  rw [paste_pix, if_neg (by
    simp only [paste_width, paste_height, crop_width, crop_height, hAw, hAh]
    omega)]
  rw [paste_pix, if_neg (by
    simp only [paste_width, paste_height, crop_width, crop_height, hAw, hAh]
    omega)]
  rw [paste_pix, if_neg (by
    simp only [paste_width, paste_height, crop_width, crop_height, hAw, hAh]
    omega)]
  rw [paste_pix, if_neg (by
    simp only [paste_width, paste_height, crop_width, crop_height, hAw, hAh]
    omega)]
  rw [paste_pix, if_neg (by
    simp only [paste_width, paste_height, crop_width, crop_height, hAw, hAh]
    omega)]
  rw [paste_pix]
  by_cases hji : (j : ℤ) = i
  · rw [if_pos (by
      simp only [paste_width, paste_height, crop_width, crop_height, hAw, hAh]
      omega)]
    rw [crop_pix, if_pos (by rw [hw, hh]; omega)]
    have e1 : (w - 1) + ((b + w + i) - (b + w + (j : ℤ))) = w - 1 := by omega
    have e2 : (0 : ℤ) + (y - b) = y - b := by omega
    rw [e1, e2, if_pos hji]
  · rw [if_neg (by
      simp only [paste_width, paste_height, crop_width, crop_height, hAw, hAh]
      omega)]
    rw [paste_pix, if_neg (by
      simp only [paste_width, paste_height, crop_width, crop_height, hAw, hAh]
      omega), if_neg hji]

/-- Iteration `j` of the repeat loop, observed at the top-border pixel
`(x, b - 1 - i)` with `b ≤ x < b + w`. -/
lemma repeat_iter_pix_top (img : PImage) (w h b i x : ℤ) (j : ℕ) (A : PImage)
    (hw : img.width = w) (hh : img.height = h) (hw1 : 1 ≤ w) (hh1 : 1 ≤ h)
    (hAw : A.width = w + 2 * b) (hAh : A.height = h + 2 * b)
    (hi0 : 0 ≤ i) (hib : i < b) (hx1 : b ≤ x) (hx2 : x < b + w) :
    (repeat_bleed_iter img w h b A (j : ℤ)).pix x (b - 1 - i) =
      if (j : ℤ) = i then img.pix (x - b) 0 else A.pix x (b - 1 - i) := by
  have hj0 : (0 : ℤ) ≤ (j : ℤ) := Int.natCast_nonneg j
  unfold repeat_bleed_iter
  dsimp only
  rw [paste_pix, if_neg (by
    simp only [paste_width, paste_height, crop_width, crop_height, hAw, hAh]
    omega)]
  rw [paste_pix, if_neg (by
    simp only [paste_width, paste_height, crop_width, crop_height, hAw, hAh]
    omega)]
  rw [paste_pix, if_neg (by
    simp only [paste_width, paste_height, crop_width, crop_height, hAw, hAh]
    omega)]
  rw [paste_pix, if_neg (by
    simp only [paste_width, paste_height, crop_width, crop_height, hAw, hAh]
    omega)]
  rw [paste_pix, if_neg (by
    simp only [paste_width, paste_height, crop_width, crop_height, hAw, hAh]
    omega)]
  rw [paste_pix]
  by_cases hji : (j : ℤ) = i
  · rw [if_pos (by
      simp only [paste_width, paste_height, crop_width, crop_height, hAw, hAh]
      omega)]
    rw [crop_pix, if_pos (by rw [hw, hh]; omega)]
    have e1 : (0 : ℤ) + (x - b) = x - b := by omega
    have e2 : (0 : ℤ) + ((b - 1 - i) - (b - (j : ℤ) - 1)) = 0 := by omega
    rw [e1, e2, if_pos hji]
  · rw [if_neg (by
      simp only [paste_width, paste_height, crop_width, crop_height, hAw, hAh]
      omega)]
    rw [paste_pix, if_neg (by
      simp only [paste_width, paste_height, crop_width, crop_height, hAw, hAh]
      omega)]
    rw [paste_pix, if_neg (by
      simp only [paste_width, paste_height, crop_width, crop_height, hAw, hAh]
      omega), if_neg hji]

/-- Iteration `j` of the repeat loop, observed at the bottom-border pixel
`(x, b + h + i)` with `b ≤ x < b + w`. -/
lemma repeat_iter_pix_bottom (img : PImage) (w h b i x : ℤ) (j : ℕ) (A : PImage)
    (hw : img.width = w) (hh : img.height = h) (hw1 : 1 ≤ w) (hh1 : 1 ≤ h)
    (hAw : A.width = w + 2 * b) (hAh : A.height = h + 2 * b)
    (hi0 : 0 ≤ i) (hib : i < b) (hx1 : b ≤ x) (hx2 : x < b + w) :
    (repeat_bleed_iter img w h b A (j : ℤ)).pix x (b + h + i) =
      if (j : ℤ) = i then img.pix (x - b) (h - 1) else A.pix x (b + h + i) := by
  have hj0 : (0 : ℤ) ≤ (j : ℤ) := Int.natCast_nonneg j
  unfold repeat_bleed_iter
  dsimp only
  rw [paste_pix, if_neg (by
    simp only [paste_width, paste_height, crop_width, crop_height, hAw, hAh]
    omega)]
  rw [paste_pix, if_neg (by
    simp only [paste_width, paste_height, crop_width, crop_height, hAw, hAh]
    omega)]
  rw [paste_pix, if_neg (by
    simp only [paste_width, paste_height, crop_width, crop_height, hAw, hAh]
    omega)]
  rw [paste_pix, if_neg (by
    simp only [paste_width, paste_height, crop_width, crop_height, hAw, hAh]
    omega)]
  rw [paste_pix]
  by_cases hji : (j : ℤ) = i
  · rw [if_pos (by
      simp only [paste_width, paste_height, crop_width, crop_height, hAw, hAh]
      omega)]
    rw [crop_pix, if_pos (by rw [hw, hh]; omega)]
    have e1 : (0 : ℤ) + (x - b) = x - b := by omega
    have e2 : (h - 1) + ((b + h + i) - (b + h + (j : ℤ))) = h - 1 := by omega
    rw [e1, e2, if_pos hji]
  · rw [if_neg (by
      simp only [paste_width, paste_height, crop_width, crop_height, hAw, hAh]
      omega)]
    rw [paste_pix, if_neg (by
      simp only [paste_width, paste_height, crop_width, crop_height, hAw, hAh]
      omega)]
    rw [paste_pix, if_neg (by
      simp only [paste_width, paste_height, crop_width, crop_height, hAw, hAh]
      omega)]
    rw [paste_pix, if_neg (by
      simp only [paste_width, paste_height, crop_width, crop_height, hAw, hAh]
      omega), if_neg hji]

/-- After the whole repeat loop the left border column `b - 1 - i` holds the
source's left edge. -/
lemma add_repeat_bleed_left (img A : PImage) (w h b i y : ℤ)
    (hw : img.width = w) (hh : img.height = h) (hw1 : 1 ≤ w) (hh1 : 1 ≤ h)
    (hAw : A.width = w + 2 * b) (hAh : A.height = h + 2 * b)
    (hi0 : 0 ≤ i) (hib : i < b) (hy1 : b ≤ y) (hy2 : y < b + h) :
    (add_repeat_bleed A img w h b).pix (b - 1 - i) y = img.pix 0 (y - b) := by
  unfold add_repeat_bleed
  refine foldl_pix_write (b - 1 - i) y
    (fun acc k => repeat_bleed_iter img w h b acc (k : ℤ))
    (fun B => B.width = w + 2 * b ∧ B.height = h + 2 * b)
    (fun B k hB => ⟨by rw [repeat_bleed_iter_width]; exact hB.1,
      by rw [repeat_bleed_iter_height]; exact hB.2⟩)
    (img.pix 0 (y - b)) i.toNat (List.range b.toNat) ?_ ?_ A ⟨hAw, hAh⟩
  · intro B k hB _
    rw [repeat_iter_pix_left img w h b i y k B hw hh hw1 hh1 hB.1 hB.2 hi0 hib hy1 hy2]
    by_cases hki : (k : ℤ) = i
    · rw [if_pos hki, if_pos (by omega)]
    · rw [if_neg hki, if_neg (by omega)]
  · rw [List.mem_range]
    omega

/-- After the whole repeat loop the right border column `b + w + i` holds the
source's right edge. -/
lemma add_repeat_bleed_right (img A : PImage) (w h b i y : ℤ)
    (hw : img.width = w) (hh : img.height = h) (hw1 : 1 ≤ w) (hh1 : 1 ≤ h)
    (hAw : A.width = w + 2 * b) (hAh : A.height = h + 2 * b)
    (hi0 : 0 ≤ i) (hib : i < b) (hy1 : b ≤ y) (hy2 : y < b + h) :
    (add_repeat_bleed A img w h b).pix (b + w + i) y = img.pix (w - 1) (y - b) := by
  unfold add_repeat_bleed
  refine foldl_pix_write (b + w + i) y
    (fun acc k => repeat_bleed_iter img w h b acc (k : ℤ))
    (fun B => B.width = w + 2 * b ∧ B.height = h + 2 * b)
    (fun B k hB => ⟨by rw [repeat_bleed_iter_width]; exact hB.1,
      by rw [repeat_bleed_iter_height]; exact hB.2⟩)
    (img.pix (w - 1) (y - b)) i.toNat (List.range b.toNat) ?_ ?_ A ⟨hAw, hAh⟩
  · intro B k hB _
    rw [repeat_iter_pix_right img w h b i y k B hw hh hw1 hh1 hB.1 hB.2 hi0 hib hy1 hy2]
    by_cases hki : (k : ℤ) = i
    · rw [if_pos hki, if_pos (by omega)]
    · rw [if_neg hki, if_neg (by omega)]
  · rw [List.mem_range]
    omega

/-- After the whole repeat loop the top border row `b - 1 - i` holds the
source's top edge. -/
lemma add_repeat_bleed_top (img A : PImage) (w h b i x : ℤ)
    (hw : img.width = w) (hh : img.height = h) (hw1 : 1 ≤ w) (hh1 : 1 ≤ h)
    (hAw : A.width = w + 2 * b) (hAh : A.height = h + 2 * b)
    (hi0 : 0 ≤ i) (hib : i < b) (hx1 : b ≤ x) (hx2 : x < b + w) :
    (add_repeat_bleed A img w h b).pix x (b - 1 - i) = img.pix (x - b) 0 := by
  unfold add_repeat_bleed
  refine foldl_pix_write x (b - 1 - i)
    (fun acc k => repeat_bleed_iter img w h b acc (k : ℤ))
    (fun B => B.width = w + 2 * b ∧ B.height = h + 2 * b)
    (fun B k hB => ⟨by rw [repeat_bleed_iter_width]; exact hB.1,
      by rw [repeat_bleed_iter_height]; exact hB.2⟩)
    (img.pix (x - b) 0) i.toNat (List.range b.toNat) ?_ ?_ A ⟨hAw, hAh⟩
  · intro B k hB _
    rw [repeat_iter_pix_top img w h b i x k B hw hh hw1 hh1 hB.1 hB.2 hi0 hib hx1 hx2]
    by_cases hki : (k : ℤ) = i
    · rw [if_pos hki, if_pos (by omega)]
    · rw [if_neg hki, if_neg (by omega)]
  · rw [List.mem_range]
    omega

/-- After the whole repeat loop the bottom border row `b + h + i` holds the
source's bottom edge. -/
lemma add_repeat_bleed_bottom (img A : PImage) (w h b i x : ℤ)
    (hw : img.width = w) (hh : img.height = h) (hw1 : 1 ≤ w) (hh1 : 1 ≤ h)
    (hAw : A.width = w + 2 * b) (hAh : A.height = h + 2 * b)
    (hi0 : 0 ≤ i) (hib : i < b) (hx1 : b ≤ x) (hx2 : x < b + w) :
    (add_repeat_bleed A img w h b).pix x (b + h + i) = img.pix (x - b) (h - 1) := by
  unfold add_repeat_bleed
  refine foldl_pix_write x (b + h + i)
    (fun acc k => repeat_bleed_iter img w h b acc (k : ℤ))
    (fun B => B.width = w + 2 * b ∧ B.height = h + 2 * b)
    (fun B k hB => ⟨by rw [repeat_bleed_iter_width]; exact hB.1,
      by rw [repeat_bleed_iter_height]; exact hB.2⟩)
    (img.pix (x - b) (h - 1)) i.toNat (List.range b.toNat) ?_ ?_ A ⟨hAw, hAh⟩
  · intro B k hB _
    rw [repeat_iter_pix_bottom img w h b i x k B hw hh hw1 hh1 hB.1 hB.2 hi0 hib hx1 hx2]
    by_cases hki : (k : ℤ) = i
    · rw [if_pos hki, if_pos (by omega)]
    · rw [if_neg hki, if_neg (by omega)]
  · rw [List.mem_range]
    omega

/-- C6: in Repeat mode, for every source raster (nonempty in both
dimensions), every `bleed_size` and every `0 ≤ i < bleed_size`, the border
ring replicates the nearest source edge: the left border satisfies
`new_img[bleed-1-i, y] = source[0, y-bleed]` for `y` in the pasted source's
row range, and symmetrically the right, top and bottom strips replicate the
adjacent source edge column/row outward. -/
theorem repeat_bleed_border_property (img : PImage) (width height bleed_size : ℤ)
    (res : PImage × ℤ × ℤ)
    (hres : create_new_image_with_bleed img width height bleed_size "repeat" =
      Except.ok res)
    (hw : img.width = width) (hh : img.height = height)
    (hw1 : 1 ≤ width) (hh1 : 1 ≤ height)
    (i : ℤ) (hi0 : 0 ≤ i) (hib : i < bleed_size) :
    (∀ y : ℤ, bleed_size ≤ y → y < bleed_size + height →
      res.1.pix (bleed_size - 1 - i) y = img.pix 0 (y - bleed_size) ∧
      res.1.pix (bleed_size + width + i) y =
        img.pix (width - 1) (y - bleed_size)) ∧
    (∀ x : ℤ, bleed_size ≤ x → x < bleed_size + width →
      res.1.pix x (bleed_size - 1 - i) = img.pix (x - bleed_size) 0 ∧
      res.1.pix x (bleed_size + height + i) =
        img.pix (x - bleed_size) (height - 1)) := by
  have hX : create_new_image_with_bleed img width height bleed_size "repeat" =
      Except.ok
        (add_repeat_bleed
          (paste (imageNew (width + 2 * bleed_size) (height + 2 * bleed_size)) img
            bleed_size bleed_size)
          img width height bleed_size,
         width + 2 * bleed_size, height + 2 * bleed_size) := rfl
  rw [hX] at hres
  injection hres with hres2
  subst hres2
  constructor
  · intro y hy1 hy2
    exact ⟨add_repeat_bleed_left img _ width height bleed_size i y hw hh hw1 hh1
      rfl rfl hi0 hib hy1 hy2,
      add_repeat_bleed_right img _ width height bleed_size i y hw hh hw1 hh1
      rfl rfl hi0 hib hy1 hy2⟩
  · intro x hx1 hx2
    exact ⟨add_repeat_bleed_top img _ width height bleed_size i x hw hh hw1 hh1
      rfl rfl hi0 hib hx1 hx2,
      add_repeat_bleed_bottom img _ width height bleed_size i x hw hh hw1 hh1
      rfl rfl hi0 hib hx1 hx2⟩

/-- Witness for C6: a 1×1 source of color (5,6,7) with repeat bleed 1 puts
the source color at the left-border pixel (0, 1). -/
theorem repeat_bleed_border_property_witness :
    ((1 : ℤ) ≤ 1 ∧ (0 : ℤ) ≤ 0 ∧ (0 : ℤ) < 1) ∧
    (add_repeat_bleed
        (paste (imageNew 3 3) (PImage.mk 1 1 fun _ _ => (5, 6, 7)) 1 1)
        (PImage.mk 1 1 fun _ _ => (5, 6, 7)) 1 1 1).pix 0 1 =
      ((5 : ℤ), (6 : ℤ), (7 : ℤ)) := by
  have h := repeat_bleed_border_property (PImage.mk 1 1 fun _ _ => (5, 6, 7)) 1 1 1
    (add_repeat_bleed
      (paste (imageNew 3 3) (PImage.mk 1 1 fun _ _ => (5, 6, 7)) 1 1)
      (PImage.mk 1 1 fun _ _ => (5, 6, 7)) 1 1 1, 3, 3)
    rfl rfl rfl (by norm_num) (by norm_num) 0 (by norm_num) (by norm_num)
  have h2 := (h.1 1 (by norm_num) (by norm_num)).1
  have e1 : (1 : ℤ) - 1 - 0 = 0 := by norm_num
  rw [e1] at h2
  refine ⟨⟨le_refl 1, le_refl 0, by norm_num⟩, ?_⟩
  rw [h2]

end LayoutTool
